import Mathlib

/-!
Verification of the Lantern TTI (Interactive) metric of the devtools-frontend
performance-estimation engine, against its natural-language specification.

The embedding follows `front_end/models/trace/lantern/metrics/Interactive.ts`.
Graphs are represented arena-style (flat node table plus id-indexed edge
list), as the design notes of the spec suggest for the node/graph model.
JavaScript numbers are modelled by `ℚ` (the computation is exact linear
arithmetic on trace timings; no transcendental operations occur).
-/

namespace Lantern

/-- Network request descriptor; only the fields the TTI predicate reads. -/
structure NetworkRequest where
  resourceType : String
  priority : String
deriving DecidableEq, Repr

/-- Kind-polymorphic node payload: CPU task (duration in microseconds) or
network request. -/
inductive NodeData where
  | cpu (duration : ℚ)
  | network (request : NetworkRequest)
deriving DecidableEq, Repr

/-- A node of the dependency graph: stable identity plus payload. -/
structure Node where
  id : Nat
  data : NodeData
deriving DecidableEq, Repr

/-- Dependency graph: flat node table, dependency edges as id pairs
(an edge (a, b) means b depends on a, i.e. a → b downstream). -/
structure Graph where
  nodes : List Node
  edges : List (Nat × Nat)
deriving DecidableEq, Repr

/-- Edge test on ids. -/
def hasEdge (g : Graph) (a b : Nat) : Bool :=
  g.edges.any (fun e => e.1 == a && e.2 == b)

/-- Predicate `reachExcl g p fuel a b` holds when b is reachable from a along edges of
g through intermediate nodes that all fail the predicate p, using at most
`fuel` intermediate hops. -/
def reachExcl (g : Graph) (p : Node → Bool) : Nat → Nat → Nat → Bool
  | 0, a, b => hasEdge g a b
  | fuel + 1, a, b =>
      hasEdge g a b ||
        g.nodes.any (fun m => !(p m) && hasEdge g a m.id && reachExcl g p fuel m.id b)

/-- Modelled from the spec: `BaseNode.cloneWithRelationships` (the file
BaseNode.ts is not under src/, only its caller Interactive.ts is). Per the
spec it returns a new graph containing exactly the nodes satisfying the
predicate, preserving every transitive dependency edge between surviving
nodes: if A→B→C and B is excluded, an edge A→C exists in the result. Here
the clone keeps an edge (a, b) between retained ids exactly when the source
has a path from a to b whose intermediate nodes are all excluded; the fuel
`g.nodes.length` suffices because a repetition-free excluded interior cannot
be longer than the node table. The source graph is a value and is returned
untouched (pure function). -/
def cloneWithRelationships (g : Graph) (p : Node → Bool) : Graph :=
  let kept := g.nodes.filter p
  let keptIds := kept.map Node.id
  { nodes := kept,
    edges := keptIds.flatMap (fun a =>
      (keptIds.filter (fun b => reachExcl g p g.nodes.length a b)).map
        (fun b => (a, b))) }

/-- Immutable blend coefficients of a metric. -/
structure MetricCoefficients where
  intercept : ℚ
  optimistic : ℚ
  pessimistic : ℚ
deriving DecidableEq, Repr

/-- Per-node timing produced by a simulation run. `endTime` is optional:
the source defensively coerces a missing end time to 0. -/
structure NodeTiming where
  startTime : ℚ
  endTime : Option ℚ
  duration : ℚ
deriving DecidableEq, Repr

/-- Simulation result: total completion time and per-node timings. -/
structure SimulationResult where
  timeInMs : ℚ
  nodeTimings : List (Node × NodeTiming)
deriving DecidableEq, Repr

/-- A metric Result: blended timing, both branch estimates, both graphs. -/
structure MetricResult where
  timing : ℚ
  optimisticEstimate : SimulationResult
  pessimisticEstimate : SimulationResult
  optimisticGraph : Graph
  pessimisticGraph : Graph
deriving DecidableEq, Repr

/-- Extras passed into a branch estimate extraction: which branch is being
computed, and the previously computed LCP result when present. -/
structure Extras where
  optimistic : Bool
  lcpResult : Option MetricResult
deriving DecidableEq, Repr

/-- Extras as supplied by the caller of compute (the `optimistic` flag is
added per branch by the base algorithm). -/
structure ExtrasInput where
  lcpResult : Option MetricResult
deriving DecidableEq, Repr

/-- The error kinds of the core. The source throws Error objects; the spec
names the absent-extras case MissingDependency. -/
inductive MetricError where
  | missingDependency
deriving DecidableEq, Repr

-- Any CPU task of 20 ms or more will end up being a critical long task on mobile
def CRITICAL_LONG_TASK_THRESHOLD : ℚ := 20

namespace Interactive

/-- TTI blend coefficients, from `Interactive.coefficients`. -/
def coefficients : MetricCoefficients :=
  { intercept := 0, optimistic := 0.45, pessimistic := 0.55 }

/-- The node-retention predicate passed to `cloneWithRelationships` by
`Interactive.getOptimisticGraph`: long CPU tasks (duration above the
critical-long-task threshold scaled to microseconds), and non-image network
requests that are scripts or have priority High/VeryHigh. -/
def interactivePredicate (n : Node) : Bool :=
  let minimumCpuTaskDuration := CRITICAL_LONG_TASK_THRESHOLD * 1000
  match n.data with
  | NodeData.cpu duration => decide (duration > minimumCpuTaskDuration)
  | NodeData.network request =>
      let isImage := request.resourceType == "Image"
      let isScript := request.resourceType == "Script"
      !isImage && (isScript || request.priority == "High" || request.priority == "VeryHigh")

/-- Embedding of `Interactive.getOptimisticGraph`. -/
def getOptimisticGraph (dependencyGraph : Graph) : Graph :=
  cloneWithRelationships dependencyGraph interactivePredicate

/-- Embedding of `Interactive.getPessimisticGraph`: returns the dependency graph itself. -/
def getPessimisticGraph (dependencyGraph : Graph) : Graph :=
  dependencyGraph

/-- Embedding of `Interactive.getLastLongTaskEndTime`: maximum end time over CPU-node
timings whose duration exceeds the threshold (the source default is 50),
folding with `Math.max(max || 0, x || 0)` from 0. On rationals
`max || 0 = max` (the accumulator starts at 0 and only a numeric 0 is
falsy), and `x || 0` is the defensive coercion of a missing end time. -/
def getLastLongTaskEndTime (nodeTimings : List (Node × NodeTiming))
    (threshold : ℚ) : ℚ :=
  ((nodeTimings.filter (fun nt =>
      match nt.1.data with
      | NodeData.cpu _ => decide (nt.2.duration > threshold)
      | NodeData.network _ => false)).map
    (fun nt => nt.2.endTime)).foldl (fun m x => max m (x.getD 0)) 0

/-- Embedding of `Interactive.getEstimateFromSimulation`: throws when the LCP result is
missing; otherwise the branch estimate is the max of the branch-matching
LCP timing and the last long-task end time. -/
def getEstimateFromSimulation (simulationResult : SimulationResult)
    (extras : Extras) : Except MetricError SimulationResult :=
  match extras.lcpResult with
  | none => Except.error MetricError.missingDependency
  | some lcpResult =>
      let lastTaskAt := getLastLongTaskEndTime simulationResult.nodeTimings 50
      let minimumTime := if extras.optimistic
        then lcpResult.optimisticEstimate.timeInMs
        else lcpResult.pessimisticEstimate.timeInMs
      Except.ok { timeInMs := max minimumTime lastTaskAt,
                  nodeTimings := simulationResult.nodeTimings }

end Interactive

/-- Modelled from the spec: the base algorithm `Metric.compute` (Metric.ts
is not under src/, only the subclass Interactive.ts is). Per spec 4.3:
prune the graph twice with the concrete metric's hooks, simulate both
branches with the external simulator (passed here as a function, per the
contract-only collaborator of spec 4.2), extract both estimates, and blend
linearly with the coefficients. Instantiated with the Interactive hooks. -/
def Metric.compute (simulate : Graph → SimulationResult) (graph : Graph)
    (extras : ExtrasInput) : Except MetricError MetricResult :=
  let optimisticGraph := Interactive.getOptimisticGraph graph
  let pessimisticGraph := Interactive.getPessimisticGraph graph
  match Interactive.getEstimateFromSimulation (simulate optimisticGraph)
      { optimistic := true, lcpResult := extras.lcpResult } with
  | Except.error e => Except.error e
  | Except.ok optimisticEstimate =>
    match Interactive.getEstimateFromSimulation (simulate pessimisticGraph)
        { optimistic := false, lcpResult := extras.lcpResult } with
    | Except.error e => Except.error e
    | Except.ok pessimisticEstimate =>
      let c := Interactive.coefficients
      Except.ok
        { timing := c.intercept + c.optimistic * optimisticEstimate.timeInMs +
            c.pessimistic * pessimisticEstimate.timeInMs,
          optimisticEstimate := optimisticEstimate,
          pessimisticEstimate := pessimisticEstimate,
          optimisticGraph := optimisticGraph,
          pessimisticGraph := pessimisticGraph }

/-- Embedding of `Interactive.compute`: requires the LCP result, delegates to the base
algorithm, then clamps the blended timing from below by the LCP timing. -/
def Interactive.compute (simulate : Graph → SimulationResult) (graph : Graph)
    (extras : ExtrasInput) : Except MetricError MetricResult :=
  match extras.lcpResult with
  | none => Except.error MetricError.missingDependency
  | some lcpResult =>
      match Metric.compute simulate graph extras with
      | Except.error e => Except.error e
      | Except.ok metricResult =>
          Except.ok { metricResult with
            timing := max metricResult.timing lcpResult.timing }

/-! ## Helper lemmas -/

/-- The clone's node table is exactly the predicate-filtered node table. -/
lemma mem_clone_nodes (g : Graph) (p : Node → Bool) (n : Node) :
    n ∈ (cloneWithRelationships g p).nodes ↔ n ∈ g.nodes ∧ p n = true := by
  simp [cloneWithRelationships, List.mem_filter]

/-- The fold accumulator of the long-task scan never decreases. -/
lemma le_foldl_max (l : List (Option ℚ)) (init : ℚ) :
    init ≤ l.foldl (fun m x => max m (x.getD 0)) init := by
  induction l generalizing init with
  | nil => exact le_refl _
  | cons x xs ih => exact le_trans (le_max_left _ _) (ih _)

/-! ## Claims -/

/-- C1: `Interactive.getOptimisticGraph` retains exactly the nodes that are
CPU tasks of duration strictly greater than 20 * 1000 microseconds, or
network requests that are not images and are scripts or of priority
High/VeryHigh; every other node is excluded from the clone. -/
theorem optimistic_graph_retains_exactly_critical_nodes
    (g : Graph) (n : Node) :
    n ∈ (Interactive.getOptimisticGraph g).nodes ↔
      n ∈ g.nodes ∧
        ((∃ d, n.data = NodeData.cpu d ∧ d > 20 * 1000) ∨
         (∃ r, n.data = NodeData.network r ∧ r.resourceType ≠ "Image" ∧
           (r.resourceType = "Script" ∨ r.priority = "High" ∨ r.priority = "VeryHigh"))) := by
  rw [Interactive.getOptimisticGraph, mem_clone_nodes]
  constructor
  · rintro ⟨hmem, hp⟩
    refine ⟨hmem, ?_⟩
    unfold Interactive.interactivePredicate at hp
    rcases hn : n.data with d | r
    · left
      rw [hn] at hp
      simp only [decide_eq_true_eq] at hp
      exact ⟨d, rfl, by simpa [CRITICAL_LONG_TASK_THRESHOLD] using hp⟩
    · right
      rw [hn] at hp
      simp only [Bool.and_eq_true, Bool.or_eq_true, Bool.not_eq_true',
        beq_eq_false_iff_ne, ne_eq, beq_iff_eq] at hp
      exact ⟨r, rfl, hp.1, by tauto⟩
  · rintro ⟨hmem, hcase⟩
    refine ⟨hmem, ?_⟩
    unfold Interactive.interactivePredicate
    rcases hcase with ⟨d, hn, hd⟩ | ⟨r, hn, hni, hor⟩
    · rw [hn]
      simpa [CRITICAL_LONG_TASK_THRESHOLD] using hd
    · rw [hn]
      simp only [Bool.and_eq_true, Bool.or_eq_true, Bool.not_eq_true',
        beq_eq_false_iff_ne, ne_eq, beq_iff_eq]
      exact ⟨hni, by tauto⟩

/-- C10: `Interactive.getLastLongTaskEndTime` is total and nonnegative for
every node-timings list and every threshold: missing end times are coerced
to 0 by the fold, which starts at 0 and only ever takes maxima. -/
theorem last_long_task_end_time_nonneg
    (nodeTimings : List (Node × NodeTiming)) (threshold : ℚ) :
    0 ≤ Interactive.getLastLongTaskEndTime nodeTimings threshold := by
  unfold Interactive.getLastLongTaskEndTime
  exact le_foldl_max _ 0

/-- C3: with an LCP result present, `Interactive.getEstimateFromSimulation`
returns exactly max(branchLcpTiming, lastLongTaskEndTime) where the branch
LCP timing is the optimistic estimate's time on the optimistic branch and
the pessimistic estimate's time otherwise, and the node timings are passed
through. -/
theorem estimate_from_simulation_is_max_of_lcp_and_last_task
    (simulationResult : SimulationResult) (extras : Extras)
    (lcp : MetricResult) (h : extras.lcpResult = some lcp) :
    Interactive.getEstimateFromSimulation simulationResult extras =
      Except.ok
        { timeInMs := max
            (if extras.optimistic then lcp.optimisticEstimate.timeInMs
             else lcp.pessimisticEstimate.timeInMs)
            (Interactive.getLastLongTaskEndTime simulationResult.nodeTimings 50),
          nodeTimings := simulationResult.nodeTimings } := by
  unfold Interactive.getEstimateFromSimulation
  rw [h]

/-! ## Concrete example values (used by the witnesses) -/

def exNodeCpu : Node := ⟨1, NodeData.cpu 25000⟩

def exNodeNet : Node := ⟨2, NodeData.network ⟨"Image", "Low"⟩⟩

def exGraph : Graph := ⟨[exNodeCpu, exNodeNet], [(1, 2)]⟩

def exSim : SimulationResult := ⟨100, [(exNodeCpu, ⟨0, some 80, 60⟩)]⟩

def exSimulate : Graph → SimulationResult := fun _ => exSim

def exLcp : MetricResult := ⟨1000, ⟨900, []⟩, ⟨1100, []⟩, exGraph, exGraph⟩

def exTtiResult : MetricResult :=
  { timing := 1010,
    optimisticEstimate := ⟨900, exSim.nodeTimings⟩,
    pessimisticEstimate := ⟨1100, exSim.nodeTimings⟩,
    optimisticGraph := ⟨[exNodeCpu], []⟩,
    pessimisticGraph := exGraph }

/-- Witness for C3 at a concrete simulation result and extras. -/
theorem estimate_from_simulation_witness :
    ({ optimistic := true, lcpResult := some exLcp } : Extras).lcpResult = some exLcp ∧
    Interactive.getEstimateFromSimulation exSim { optimistic := true, lcpResult := some exLcp } =
      Except.ok
        { timeInMs := max
            (if ({ optimistic := true, lcpResult := some exLcp } : Extras).optimistic
             then exLcp.optimisticEstimate.timeInMs
             else exLcp.pessimisticEstimate.timeInMs)
            (Interactive.getLastLongTaskEndTime exSim.nodeTimings 50),
          nodeTimings := exSim.nodeTimings } :=
  ⟨rfl, estimate_from_simulation_is_max_of_lcp_and_last_task exSim _ exLcp rfl⟩

/-- C9: `Metric.compute` and `Interactive.compute` are deterministic pure
functions of (simulator, graph, extras): equal input tuples give equal
results (one result or one error, identically reproduced). -/
theorem compute_deterministic (s s' : Graph → SimulationResult) (g g' : Graph)
    (e e' : ExtrasInput) (hs : s = s') (hg : g = g') (he : e = e') :
    Metric.compute s g e = Metric.compute s' g' e' ∧
      Interactive.compute s g e = Interactive.compute s' g' e' := by
  subst hs hg he
  exact ⟨rfl, rfl⟩

/-- Witness for C9 at a concrete input tuple. -/
theorem compute_deterministic_witness :
    Metric.compute exSimulate exGraph ⟨some exLcp⟩ =
        Metric.compute exSimulate exGraph ⟨some exLcp⟩ ∧
      Interactive.compute exSimulate exGraph ⟨some exLcp⟩ =
        Interactive.compute exSimulate exGraph ⟨some exLcp⟩ :=
  compute_deterministic exSimulate exSimulate exGraph exGraph ⟨some exLcp⟩ ⟨some exLcp⟩
    rfl rfl rfl

/-- C6: `Interactive.compute` fails with the missing-dependency error
exactly when the LCP result is absent; the failure does not depend on the
graph or the simulator (nothing is pruned or simulated first), and with the
LCP result present the computation succeeds. `getEstimateFromSimulation`
likewise errors when the LCP result is absent. -/
theorem compute_missing_lcp_behavior :
    (∀ (s : Graph → SimulationResult) (g : Graph) (e : ExtrasInput),
      e.lcpResult = none →
        Interactive.compute s g e = Except.error MetricError.missingDependency) ∧
    (∀ (s s' : Graph → SimulationResult) (g g' : Graph) (e : ExtrasInput),
      e.lcpResult = none → Interactive.compute s g e = Interactive.compute s' g' e) ∧
    (∀ (s : Graph → SimulationResult) (g : Graph) (e : ExtrasInput) (lcp : MetricResult),
      e.lcpResult = some lcp → ∃ r, Interactive.compute s g e = Except.ok r) ∧
    (∀ (sr : SimulationResult) (e : Extras),
      e.lcpResult = none →
        Interactive.getEstimateFromSimulation sr e = Except.error MetricError.missingDependency) := by
  refine ⟨?_, ?_, ?_, ?_⟩
  · intro s g e h
    obtain ⟨el⟩ := e
    simp only at h
    subst h
    rfl
  · intro s s' g g' e h
    obtain ⟨el⟩ := e
    simp only at h
    subst h
    rfl
  · intro s g e lcp h
    obtain ⟨el⟩ := e
    simp only at h
    subst h
    exact ⟨_, rfl⟩
  · intro sr e h
    obtain ⟨eo, el⟩ := e
    simp only at h
    subst h
    rfl

/-- Witness for C6 at concrete inputs, both with and without the LCP
result. -/
theorem compute_missing_lcp_witness :
    Interactive.compute exSimulate exGraph ⟨none⟩ =
        Except.error MetricError.missingDependency ∧
      (∃ r, Interactive.compute exSimulate exGraph ⟨some exLcp⟩ = Except.ok r) ∧
      Interactive.getEstimateFromSimulation exSim ⟨false, none⟩ =
        Except.error MetricError.missingDependency :=
  ⟨compute_missing_lcp_behavior.1 exSimulate exGraph ⟨none⟩ rfl,
   compute_missing_lcp_behavior.2.2.1 exSimulate exGraph ⟨some exLcp⟩ exLcp rfl,
   compute_missing_lcp_behavior.2.2.2 exSim ⟨false, none⟩ rfl⟩

/-- C5: the TTI coefficients are {intercept 0, optimistic 0.45,
pessimistic 0.55}; every successful base computation blends the branch
estimates linearly with them; and at estimates 1107 and 1134 the blend
rounds to 1122. -/
theorem blend_coefficients_and_formula :
    Interactive.coefficients =
        { intercept := 0, optimistic := 45 / 100, pessimistic := 55 / 100 } ∧
      (∀ (s : Graph → SimulationResult) (g : Graph) (e : ExtrasInput) (r : MetricResult),
        Metric.compute s g e = Except.ok r →
          r.timing = Interactive.coefficients.intercept +
            Interactive.coefficients.optimistic * r.optimisticEstimate.timeInMs +
            Interactive.coefficients.pessimistic * r.pessimisticEstimate.timeInMs) ∧
      round ((0 : ℚ) + 0.45 * 1107 + 0.55 * 1134) = 1122 := by
  refine ⟨by norm_num [Interactive.coefficients], ?_, by norm_num [round_eq]⟩
  intro s g e r h
  rcases he : e.lcpResult with _ | lcp
  · simp [Metric.compute, Interactive.getEstimateFromSimulation, he] at h
  · simp only [Metric.compute, Interactive.getEstimateFromSimulation, he,
      if_true, if_false, Except.ok.injEq] at h
    subst h
    rfl

/-- Concrete evaluation of the base computation at the example input. -/
lemma hMetricRun :
    Metric.compute exSimulate exGraph ⟨some exLcp⟩ = Except.ok exTtiResult := by
      norm_num [Metric.compute, Interactive.compute, Interactive.getEstimateFromSimulation,
        Interactive.getLastLongTaskEndTime, Interactive.getOptimisticGraph,
        Interactive.getPessimisticGraph, Interactive.interactivePredicate,
        cloneWithRelationships, reachExcl, hasEdge, exSimulate, exSim, exLcp, exGraph,
        exTtiResult, exNodeCpu, exNodeNet, Interactive.coefficients,
        CRITICAL_LONG_TASK_THRESHOLD, max_def]

/-- Concrete evaluation of the TTI computation at the example input. -/
lemma hTtiRun :
    Interactive.compute exSimulate exGraph ⟨some exLcp⟩ = Except.ok exTtiResult := by
      norm_num [Metric.compute, Interactive.compute, Interactive.getEstimateFromSimulation,
        Interactive.getLastLongTaskEndTime, Interactive.getOptimisticGraph,
        Interactive.getPessimisticGraph, Interactive.interactivePredicate,
        cloneWithRelationships, reachExcl, hasEdge, exSimulate, exSim, exLcp, exGraph,
        exTtiResult, exNodeCpu, exNodeNet, Interactive.coefficients,
        CRITICAL_LONG_TASK_THRESHOLD, max_def]

/-- Witness for C5: the concrete base computation satisfies the blend
formula. -/
theorem blend_coefficients_witness :
    Metric.compute exSimulate exGraph ⟨some exLcp⟩ = Except.ok exTtiResult ∧
    exTtiResult.timing = Interactive.coefficients.intercept +
      Interactive.coefficients.optimistic * exTtiResult.optimisticEstimate.timeInMs +
      Interactive.coefficients.pessimistic * exTtiResult.pessimisticEstimate.timeInMs :=
  ⟨hMetricRun, blend_coefficients_and_formula.2.1 exSimulate exGraph ⟨some exLcp⟩
      exTtiResult hMetricRun⟩

/-- C2: whenever `Interactive.compute` succeeds with an LCP result in the
extras, the returned timing is at least the LCP timing (after the blend the
timing is clamped from below by it). -/
theorem tti_timing_clamped_to_lcp (s : Graph → SimulationResult) (g : Graph)
    (e : ExtrasInput) (r lcp : MetricResult) (he : e.lcpResult = some lcp)
    (h : Interactive.compute s g e = Except.ok r) :
    lcp.timing ≤ r.timing := by
  obtain ⟨el⟩ := e
  simp only at he
  subst he
  simp only [Interactive.compute, Metric.compute, Interactive.getEstimateFromSimulation,
    if_true, if_false, Except.ok.injEq] at h
  subst h
  exact le_max_right _ _

/-- Witness for C2 at a concrete successful computation. -/
theorem tti_timing_clamped_witness :
    (⟨some exLcp⟩ : ExtrasInput).lcpResult = some exLcp ∧
      Interactive.compute exSimulate exGraph ⟨some exLcp⟩ = Except.ok exTtiResult ∧
      exLcp.timing ≤ exTtiResult.timing :=
  ⟨rfl, hTtiRun,
   tti_timing_clamped_to_lcp exSimulate exGraph ⟨some exLcp⟩ exTtiResult exLcp rfl hTtiRun⟩

/-- A left fold by max is at least its initial accumulator. -/
lemma le_foldl_max_generic (l : List ℚ) (init : ℚ) :
    init ≤ l.foldl max init := by
  induction l generalizing init with
  | nil => exact le_refl _
  | cons x xs ih => exact le_trans (le_max_left _ _) (ih _)

/-- A left fold by max bounds every list element from above. -/
lemma elem_le_foldl_max : ∀ (l : List ℚ) (init y : ℚ), y ∈ l → y ≤ l.foldl max init := by
  intro l
  induction l with
  | nil => intro init y hy; cases hy
  | cons x xs ih =>
      intro init y hy
      rcases List.mem_cons.mp hy with h | h
      · subst h
        exact le_trans (le_max_right init y) (le_foldl_max_generic xs _)
      · exact ih (max init x) y h

/-- A left fold by max lands on the initial accumulator or a list element. -/
lemma foldl_max_mem : ∀ (l : List ℚ) (init : ℚ), l.foldl max init ∈ init :: l := by
  intro l
  induction l with
  | nil => intro init; exact List.mem_singleton.mpr rfl
  | cons x xs ih =>
      intro init
      rw [List.foldl_cons]
      rcases List.mem_cons.mp (ih (max init x)) with h | h
      · rcases max_choice init x with hm | hm
        · rw [h, hm]; exact List.mem_cons_self _ _
        · rw [h, hm]; exact List.mem_cons.mpr (Or.inr (List.mem_cons_self _ _))
      · exact List.mem_cons.mpr (Or.inr (List.mem_cons.mpr (Or.inr h)))

/-- C4: with threshold 50, `Interactive.getLastLongTaskEndTime` is the
maximum end time over the CPU-node timings whose duration strictly exceeds
50, and 0 when there is no such timing; network-node timings never enter
the scan. End times are assumed present and nonnegative (simulated times),
matching the claim's reading of "maximum endTime". -/
theorem last_long_task_is_max_end_time (nt : List (Node × NodeTiming))
    (h : ∀ x ∈ nt, ∃ e, x.2.endTime = some e ∧ 0 ≤ e) :
    ((nt.filter (fun x =>
        match x.1.data with
        | NodeData.cpu _ => decide (x.2.duration > 50)
        | NodeData.network _ => false)) = [] →
      Interactive.getLastLongTaskEndTime nt 50 = 0) ∧
    (∀ x ∈ (nt.filter (fun x =>
        match x.1.data with
        | NodeData.cpu _ => decide (x.2.duration > 50)
        | NodeData.network _ => false)), ∀ e, x.2.endTime = some e →
      e ≤ Interactive.getLastLongTaskEndTime nt 50) ∧
    (Interactive.getLastLongTaskEndTime nt 50 = 0 ∨
      ∃ x ∈ (nt.filter (fun x =>
        match x.1.data with
        | NodeData.cpu _ => decide (x.2.duration > 50)
        | NodeData.network _ => false)),
        x.2.endTime = some (Interactive.getLastLongTaskEndTime nt 50)) := by
  set sel : Node × NodeTiming → Bool := fun x =>
    match x.1.data with
    | NodeData.cpu _ => decide (x.2.duration > 50)
    | NodeData.network _ => false with hsel
  have hfold : Interactive.getLastLongTaskEndTime nt 50 =
      ((nt.filter sel).map (fun x => x.2.endTime.getD 0)).foldl max 0 := by
    rw [Interactive.getLastLongTaskEndTime, List.foldl_map, List.foldl_map]
  refine ⟨?_, ?_, ?_⟩
  · intro hempty
    rw [hfold, hempty]
    rfl
  · intro x hx e he
    rw [hfold]
    refine elem_le_foldl_max _ 0 e ?_
    refine List.mem_map.mpr ⟨x, hx, ?_⟩
    rw [he]
    rfl
  · rcases List.mem_cons.mp (foldl_max_mem ((nt.filter sel).map
        (fun x => x.2.endTime.getD 0)) 0) with h0 | hmem
    · left
      rw [hfold, h0]
    · right
      rcases List.mem_map.mp hmem with ⟨x, hx, hxe⟩
      obtain ⟨e, he, _⟩ := h x (List.mem_of_mem_filter hx)
      refine ⟨x, hx, ?_⟩
      rw [he]
      rw [he] at hxe
      simp only [Option.getD_some] at hxe
      rw [hfold, ← hxe]

/-- Witness for C4 at a concrete timings list with one qualifying CPU task. -/
theorem last_long_task_is_max_end_time_witness :
    (∀ x ∈ exSim.nodeTimings, ∃ e, x.2.endTime = some e ∧ 0 ≤ e) ∧
    (Interactive.getLastLongTaskEndTime exSim.nodeTimings 50 = 0 ∨
      ∃ x ∈ (exSim.nodeTimings.filter (fun x =>
        match x.1.data with
        | NodeData.cpu _ => decide (x.2.duration > 50)
        | NodeData.network _ => false)),
        x.2.endTime = some (Interactive.getLastLongTaskEndTime exSim.nodeTimings 50)) :=
  ⟨by decide, (last_long_task_is_max_end_time exSim.nodeTimings (by decide)).2.2⟩

/-! ## Dependency paths and the clone's edge structure -/

/-- Predicate `chainEdges g a interior b` holds when the ids a, interior..., b form a
consecutive edge path in g. -/
def chainEdges (g : Graph) : Nat → List Node → Nat → Bool
  | a, [], b => hasEdge g a b
  | a, x :: xs, b => hasEdge g a x.id && chainEdges g x.id xs b

/-- Edge tests unfold to membership in the edge list. -/
lemma hasEdge_iff (g : Graph) (a b : Nat) :
    hasEdge g a b = true ↔ (a, b) ∈ g.edges := by
  simp only [hasEdge, List.any_eq_true, Bool.and_eq_true, beq_iff_eq]
  constructor
  · rintro ⟨⟨e1, e2⟩, he, h1, h2⟩
    simp only at h1 h2
    rw [← h1, ← h2]
    exact he
  · intro h
    exact ⟨(a, b), h, rfl, rfl⟩

/-- Reachability is monotone in the fuel. -/
lemma reachExcl_mono (g : Graph) (p : Node → Bool) :
    ∀ (f f' a b : Nat), f ≤ f' →
      reachExcl g p f a b = true → reachExcl g p f' a b = true := by
  intro f
  induction f with
  | zero =>
      intro f' a b _ h
      cases f' with
      | zero => exact h
      | succ n => simp only [reachExcl] at h ⊢; rw [h, Bool.true_or]
  | succ m ih =>
      intro f' a b hle h
      cases f' with
      | zero => omega
      | succ n =>
          simp only [reachExcl, Bool.or_eq_true, List.any_eq_true,
            Bool.and_eq_true] at h ⊢
          rcases h with h | ⟨w, hw, ⟨hnp, he⟩, hr⟩
          · exact Or.inl h
          · exact Or.inr ⟨w, hw, ⟨hnp, he⟩, ih n w.id b (by omega) hr⟩

/-- A direct edge is reachability at any fuel. -/
lemma hasEdge_imp_reachExcl (g : Graph) (p : Node → Bool) (f a b : Nat)
    (h : hasEdge g a b = true) : reachExcl g p f a b = true := by
  cases f with
  | zero => exact h
  | succ n => simp only [reachExcl]; rw [h, Bool.true_or]

/-- An edge path whose interior nodes are all excluded, of length within
the fuel, witnesses reachability-through-excluded. -/
lemma reachExcl_of_chain (g : Graph) (p : Node → Bool) :
    ∀ (excl : List Node) (a b f : Nat), excl.length ≤ f →
      (∀ m ∈ excl, m ∈ g.nodes ∧ p m = false) →
      chainEdges g a excl b = true → reachExcl g p f a b = true := by
  intro excl
  induction excl with
  | nil =>
      intro a b f _ _ hc
      exact hasEdge_imp_reachExcl g p f a b hc
  | cons x xs ih =>
      intro a b f hlen hmem hc
      cases f with
      | zero => simp at hlen
      | succ n =>
          simp only [chainEdges, Bool.and_eq_true] at hc
          simp only [reachExcl, Bool.or_eq_true, List.any_eq_true, Bool.and_eq_true]
          refine Or.inr ⟨x, (hmem x (List.mem_cons_self x xs)).1, ⟨?_, hc.1⟩,
            ih x.id b n (by simpa using Nat.le_of_succ_le_succ hlen)
              (fun m hm => hmem m (List.mem_cons.mpr (Or.inr hm))) hc.2⟩
          simp [(hmem x (List.mem_cons_self x xs)).2]

/-- Splitting an edge path at an interior node. -/
lemma chainEdges_append (g : Graph) :
    ∀ (l₁ : List Node) (x : Node) (l₂ : List Node) (a b : Nat),
      chainEdges g a (l₁ ++ x :: l₂) b =
        (chainEdges g a l₁ x.id && chainEdges g x.id l₂ b) := by
  intro l₁
  induction l₁ with
  | nil => intro x l₂ a b; rfl
  | cons y ys ih =>
      intro x l₂ a b
      simp only [List.cons_append, chainEdges, List.append_eq, ih, Bool.and_assoc]

/-- A duplicate-free list of nodes of g is no longer than the node table. -/
lemma nodup_subset_length (l L : List Node) (hnd : l.Nodup)
    (hsub : ∀ m ∈ l, m ∈ L) : l.length ≤ L.length := by
  classical
  calc l.length = l.toFinset.card := (List.toFinset_card_of_nodup hnd).symm
  _ ≤ L.toFinset.card := Finset.card_le_card
      (fun x hx => List.mem_toFinset.mpr (hsub x (List.mem_toFinset.mp hx)))
  _ ≤ L.length := L.toFinset_card_le

/-- The head surviving a dropWhile fails the predicate. -/
lemma dropWhile_head_false (q : Node → Bool) :
    ∀ (l : List Node) (r : Node) (rest : List Node),
      l.dropWhile q = r :: rest → q r = false := by
  intro l
  induction l with
  | nil => intro r rest h; simp [List.dropWhile] at h
  | cons x xs ih =>
      intro r rest h
      rw [List.dropWhile_cons] at h
      by_cases hq : q x = true
      · rw [if_pos hq] at h
        exact ih r rest h
      · have hq' : q x = false := Bool.eq_false_iff.mpr hq
        rw [hq', if_neg (by simp)] at h
        cases h
        exact hq'

/-- Membership in the clone's edge list: both endpoints retained, and the
target reachable from the source through excluded nodes. -/
lemma mem_clone_edges (g : Graph) (p : Node → Bool) (a b : Nat) :
    (a, b) ∈ (cloneWithRelationships g p).edges ↔
      (a ∈ (g.nodes.filter p).map Node.id ∧ b ∈ (g.nodes.filter p).map Node.id ∧
        reachExcl g p g.nodes.length a b = true) := by
  simp only [cloneWithRelationships, List.mem_flatMap, List.mem_map,
    List.mem_filter, Prod.mk.injEq]
  constructor
  · rintro ⟨a', ha', b', ⟨hb', hr⟩, haeq, hbeq⟩
    subst haeq
    subst hbeq
    exact ⟨ha', hb', hr⟩
  · rintro ⟨ha, hb, hr⟩
    exact ⟨a, ha, b, ⟨hb, hr⟩, rfl, rfl⟩

/-- Retained ids of g are ids of the filtered node table. -/
lemma mem_kept_ids (g : Graph) (p : Node → Bool) (a : Node)
    (ha : a ∈ g.nodes) (hpa : p a = true) :
    a.id ∈ (g.nodes.filter p).map Node.id :=
  List.mem_map.mpr ⟨a, List.mem_filter.mpr ⟨ha, hpa⟩, rfl⟩

/-- Core induction for path preservation: an edge path in g between two
retained nodes, with duplicate-free interior drawn from g's nodes, yields a
(possibly shortened) edge path in the clone whose interior is retained. -/
lemma clone_chain_aux (g : Graph) (p : Node → Bool) :
    ∀ (n : Nat) (interior : List Node) (a b : Node),
      interior.length ≤ n →
      a ∈ g.nodes → p a = true → b ∈ g.nodes → p b = true →
      (∀ m ∈ interior, m ∈ g.nodes) → interior.Nodup →
      chainEdges g a.id interior b.id = true →
      ∃ interior' : List Node,
        (∀ m ∈ interior', m ∈ (cloneWithRelationships g p).nodes) ∧
        chainEdges (cloneWithRelationships g p) a.id interior' b.id = true := by
  intro n
  induction n with
  | zero =>
      intro interior a b hlen ha hpa hb hpb hmem hnd hchain
      have hnil : interior = [] := List.eq_nil_of_length_eq_zero (Nat.le_zero.mp hlen)
      subst hnil
      refine ⟨[], by simp, ?_⟩
      show hasEdge (cloneWithRelationships g p) a.id b.id = true
      rw [hasEdge_iff, mem_clone_edges]
      exact ⟨mem_kept_ids g p a ha hpa, mem_kept_ids g p b hb hpb,
        hasEdge_imp_reachExcl g p _ _ _ hchain⟩
  | succ n ih =>
      intro interior a b hlen ha hpa hb hpb hmem hnd hchain
      rcases hdw : interior.dropWhile (fun m => !(p m)) with _ | ⟨r, rest⟩
      · have hiall : interior.takeWhile (fun m => !(p m)) = interior := by
          have htd := List.takeWhile_append_dropWhile
            (p := fun m => !(p m)) (l := interior)
          rw [hdw, List.append_nil] at htd
          exact htd
        have hexcl : ∀ m ∈ interior, m ∈ g.nodes ∧ p m = false := by
          intro m hm
          refine ⟨hmem m hm, ?_⟩
          have hmtw : m ∈ interior.takeWhile (fun m => !(p m)) := by
            rw [hiall]; exact hm
          simpa using List.mem_takeWhile_imp hmtw
        refine ⟨[], by simp, ?_⟩
        show hasEdge (cloneWithRelationships g p) a.id b.id = true
        rw [hasEdge_iff, mem_clone_edges]
        exact ⟨mem_kept_ids g p a ha hpa, mem_kept_ids g p b hb hpb,
          reachExcl_of_chain g p interior a.id b.id g.nodes.length
            (nodup_subset_length interior g.nodes hnd hmem) hexcl hchain⟩
      · have hsplit : interior = interior.takeWhile (fun m => !(p m)) ++ r :: rest := by
          conv_lhs => rw [← List.takeWhile_append_dropWhile
            (p := fun m => !(p m)) (l := interior)]
          rw [hdw]
        have hpr : p r = true := by
          simpa using dropWhile_head_false (fun m => !(p m)) interior r rest hdw
        have hrmem : r ∈ g.nodes := hmem r (by
          rw [hsplit]; exact List.mem_append.mpr (Or.inr (List.mem_cons_self _ _)))
        have hexclsub : ∀ m ∈ interior.takeWhile (fun m => !(p m)),
            m ∈ g.nodes ∧ p m = false := by
          intro m hm
          refine ⟨hmem m (by rw [hsplit]; exact List.mem_append.mpr (Or.inl hm)), ?_⟩
          simpa using List.mem_takeWhile_imp hm
        have hchain2 := hchain
        rw [hsplit, chainEdges_append, Bool.and_eq_true] at hchain2
        have hc1 := hchain2.1
        have hc2 := hchain2.2
        have hexclnd : (interior.takeWhile (fun m => !(p m))).Nodup :=
          (List.takeWhile_sublist _).nodup hnd
        have hrestnd : rest.Nodup := by
          have hsub : List.Sublist rest interior :=
            (List.sublist_cons_self r rest).trans (hdw ▸ List.dropWhile_sublist _)
          exact hsub.nodup hnd
        have hrestmem : ∀ m ∈ rest, m ∈ g.nodes := fun m hm => hmem m (by
          rw [hsplit]
          exact List.mem_append.mpr (Or.inr (List.mem_cons.mpr (Or.inr hm))))
        have hlenrest : rest.length ≤ n := by
          have hli : interior.length =
              (interior.takeWhile (fun m => !(p m))).length + (rest.length + 1) := by
            conv_lhs => rw [hsplit]
            simp [List.length_append]
          omega
        obtain ⟨interior'', hmem'', hchain''⟩ :=
          ih rest r b hlenrest hrmem hpr hb hpb hrestmem hrestnd hc2
        refine ⟨r :: interior'', ?_, ?_⟩
        · intro m hm
          rcases List.mem_cons.mp hm with h | h
          · subst h
            exact (mem_clone_nodes g p m).mpr ⟨hrmem, hpr⟩
          · exact hmem'' m h
        · show (hasEdge (cloneWithRelationships g p) a.id r.id &&
              chainEdges (cloneWithRelationships g p) r.id interior'' b.id) = true
          rw [Bool.and_eq_true]
          refine ⟨?_, hchain''⟩
          rw [hasEdge_iff, mem_clone_edges]
          exact ⟨mem_kept_ids g p a ha hpa, mem_kept_ids g p r hrmem hpr,
            reachExcl_of_chain g p (interior.takeWhile (fun m => !(p m)))
              a.id r.id g.nodes.length
              (nodup_subset_length _ g.nodes hexclnd (fun m hm => (hexclsub m hm).1))
              hexclsub hc1⟩

/-- C8: `cloneWithRelationships` keeps exactly the nodes satisfying the
predicate (no excluded node appears), and every duplicate-free dependency
path of the source between two retained nodes survives in the clone,
possibly shortened across excluded interior nodes. The clone is a pure
function of the graph and the predicate, so the source value is untouched
and the result deterministic. -/
theorem clone_with_relationships_exact_and_path_preserving
    (g : Graph) (p : Node → Bool) (a b : Node) (interior : List Node)
    (ha : a ∈ g.nodes) (hpa : p a = true) (hb : b ∈ g.nodes) (hpb : p b = true)
    (hint : ∀ m ∈ interior, m ∈ g.nodes) (hnd : interior.Nodup)
    (hchain : chainEdges g a.id interior b.id = true) :
    (∀ n, n ∈ (cloneWithRelationships g p).nodes ↔ n ∈ g.nodes ∧ p n = true) ∧
    ∃ interior' : List Node,
      (∀ m ∈ interior', m ∈ (cloneWithRelationships g p).nodes) ∧
      chainEdges (cloneWithRelationships g p) a.id interior' b.id = true :=
  ⟨fun n => mem_clone_nodes g p n,
   clone_chain_aux g p interior.length interior a b (le_refl _)
     ha hpa hb hpb hint hnd hchain⟩

def exNodeB : Node := ⟨3, NodeData.cpu 30000⟩

def exPathGraph : Graph := ⟨[exNodeCpu, exNodeNet, exNodeB], [(1, 2), (2, 3)]⟩

def exKeepPredicate : Node → Bool := fun n => !(n.id == 2)

/-- Witness for C8: the two retained endpoints of the concrete path graph
stay connected in the clone although the middle node is excluded. -/
theorem clone_with_relationships_witness :
    (exNodeCpu ∈ exPathGraph.nodes ∧ exKeepPredicate exNodeCpu = true ∧
     exNodeB ∈ exPathGraph.nodes ∧ exKeepPredicate exNodeB = true ∧
     (∀ m ∈ [exNodeNet], m ∈ exPathGraph.nodes) ∧
     ([exNodeNet] : List Node).Nodup ∧
     chainEdges exPathGraph exNodeCpu.id [exNodeNet] exNodeB.id = true) ∧
    ((∀ n, n ∈ (cloneWithRelationships exPathGraph exKeepPredicate).nodes ↔
        n ∈ exPathGraph.nodes ∧ exKeepPredicate n = true) ∧
     ∃ interior' : List Node,
       (∀ m ∈ interior',
         m ∈ (cloneWithRelationships exPathGraph exKeepPredicate).nodes) ∧
       chainEdges (cloneWithRelationships exPathGraph exKeepPredicate)
         exNodeCpu.id interior' exNodeB.id = true) :=
  ⟨⟨by decide, by decide, by decide, by decide, by decide, by decide, by decide⟩,
   clone_with_relationships_exact_and_path_preserving exPathGraph exKeepPredicate
     exNodeCpu exNodeB [exNodeNet] (by decide) (by decide) (by decide) (by decide)
     (by decide) (by decide) (by decide)⟩

/-- C7 counterexample: `Interactive.getPessimisticGraph` hands back the very
input value (the source is `return dependencyGraph`), so the pessimistic
graph in the Result is the caller's graph itself, not a distinct clone. -/
theorem pessimistic_graph_is_the_input_itself :
    Interactive.getPessimisticGraph exGraph = exGraph := rfl

/-- C7 (amended): the optimistic graph is a pruned copy holding exactly the
predicate-satisfying nodes, the pessimistic graph of TTI is the full,
unpruned input graph returned as-is, and a successful computation carries
that very input graph in its Result; no operation mutates the input (all
are pure value functions). -/
theorem tti_graphs_cloning_behavior :
    (∀ g, Interactive.getPessimisticGraph g = g) ∧
    (∀ g n, n ∈ (Interactive.getOptimisticGraph g).nodes ↔
      n ∈ g.nodes ∧ Interactive.interactivePredicate n = true) ∧
    (∀ (s : Graph → SimulationResult) (g : Graph) (e : ExtrasInput) (r : MetricResult),
      Interactive.compute s g e = Except.ok r →
        r.pessimisticGraph = g ∧
        r.optimisticGraph = Interactive.getOptimisticGraph g) := by
  refine ⟨fun g => rfl, fun g n => mem_clone_nodes g Interactive.interactivePredicate n, ?_⟩
  intro s g e r h
  rcases he : e.lcpResult with _ | lcp
  · simp [Interactive.compute, he] at h
  · simp only [Interactive.compute, Metric.compute, Interactive.getEstimateFromSimulation,
      he, if_true, if_false, Except.ok.injEq] at h
    subst h
    exact ⟨rfl, rfl⟩

/-- Witness for C7's amended claim at the concrete computation. -/
theorem tti_graphs_cloning_witness :
    Interactive.compute exSimulate exGraph ⟨some exLcp⟩ = Except.ok exTtiResult ∧
      exTtiResult.pessimisticGraph = exGraph ∧
      exTtiResult.optimisticGraph = Interactive.getOptimisticGraph exGraph :=
  ⟨hTtiRun, (tti_graphs_cloning_behavior.2.2 exSimulate exGraph ⟨some exLcp⟩
    exTtiResult hTtiRun)⟩

end Lantern
